import Mathlib

/-!
Shallow embedding of the Bitcoin transaction codec from `src/lib.rs`
(types `CompactSize`, `Txid`, `OutPoint`, `Script`, `TransactionInput`,
`BitcoinTransaction` with their `to_bytes` / `from_bytes` operations and
the hex text boundary of `Txid`).

Byte buffers are `List Nat` whose entries are byte values; machine
integers are `Nat` with explicit `% 2 ^ w` at the points where the Rust
code can overflow.  Rust `usize` is 64 bits wide (the crate targets
ordinary 64-bit platforms), so the one reachable overflow — the
`size_bytes + script_len` sum inside `Script::from_bytes` — is modelled
by `usizeAdd` below.  A Rust panic (arithmetic overflow in debug builds,
out-of-range slice in release builds) is modelled by the dedicated
result constructor `DecodeResult.panicked`.
-/

set_option maxHeartbeats 1000000

/-- Little-endian byte decomposition: `natToLe k v` is the list of the
`k` low-order bytes of `v`, least significant first.  Models
`uNN::to_le_bytes` (each emitted byte is reduced `% 256`, so the
truncating integer casts of the source are absorbed). -/
def natToLe : Nat → Nat → List Nat
  | 0, _ => []
  | k + 1, v => v % 256 :: natToLe k (v / 256)

/-- Little-endian recomposition of a byte list; models `uNN::from_le_bytes`. -/
def leToNat : List Nat → Nat
  | [] => 0
  | b :: bs => b + 256 * leToNat bs

/-- Wrapping 64-bit `usize` addition, the semantics of `a + b` on `usize`
in a release build (debug builds panic at the same inputs where this
wraps, and every decode path below that hits a wrap ends in a panic
either way). -/
def usizeAdd (a b : Nat) : Nat := (a + b) % 2 ^ 64

/-- Error enum `BitcoinError` of the source. -/
inductive BitcoinError where
  | insufficientBytes
  | invalidFormat
  deriving DecidableEq

/-- Result of a fallible decode call: `ok` and `err` mirror
`Result<(T, usize), BitcoinError>`; `panicked` marks a Rust panic
(a call that does not return at all). -/
inductive DecodeResult (α : Type) where
  | ok : α → DecodeResult α
  | err : BitcoinError → DecodeResult α
  | panicked : DecodeResult α
  deriving DecidableEq

/-- Struct `CompactSize { value: u64 }`. -/
structure CompactSize where
  value : Nat
  deriving DecidableEq

/-- Struct `Txid(pub [u8; 32])`; the fixed length 32 is tracked by the
well-formedness predicate `Txid.wf`. -/
structure Txid where
  bytes : List Nat
  deriving DecidableEq

/-- Struct `OutPoint { txid, vout: u32 }`. -/
structure OutPoint where
  txid : Txid
  vout : Nat
  deriving DecidableEq

/-- Struct `Script { bytes: Vec<u8> }`. -/
structure Script where
  bytes : List Nat
  deriving DecidableEq

/-- Struct `TransactionInput`. -/
structure TransactionInput where
  previous_output : OutPoint
  script_sig : Script
  sequence : Nat
  deriving DecidableEq

/-- Struct `BitcoinTransaction`. -/
structure BitcoinTransaction where
  version : Nat
  inputs : List TransactionInput
  lock_time : Nat
  deriving DecidableEq

/-- Values a Rust `Txid` can hold: exactly 32 bytes. -/
abbrev Txid.wf (t : Txid) : Prop := t.bytes.length = 32

/-- Values a Rust `OutPoint` can hold: a 32-byte txid and a `u32` vout. -/
abbrev OutPoint.wf (o : OutPoint) : Prop := o.txid.wf ∧ o.vout < 2 ^ 32

/-- Values a Rust `Script` can hold: a `Vec<u8>` never exceeds
`isize::MAX = 2 ^ 63 - 1` elements. -/
abbrev Script.wf (s : Script) : Prop := s.bytes.length < 2 ^ 63

/-- Values a Rust `TransactionInput` can hold. -/
abbrev TransactionInput.wf (i : TransactionInput) : Prop :=
  i.previous_output.wf ∧ i.script_sig.wf ∧ i.sequence < 2 ^ 32

/-- Values a Rust `BitcoinTransaction` can hold: `u32` version and lock
time, a `Vec` of well-formed inputs (its length fits in `u64`). -/
abbrev BitcoinTransaction.wf (t : BitcoinTransaction) : Prop :=
  t.version < 2 ^ 32 ∧ t.lock_time < 2 ^ 32 ∧ t.inputs.length < 2 ^ 64 ∧
    ∀ i ∈ t.inputs, i.wf

/-- `CompactSize::to_bytes`: the guarded match on `self.value` of the
source, branch for branch.  The `as u16` / `as u32` casts are lossless
inside their guards and `natToLe` truncates per byte in any case. -/
def CompactSize.toBytes (cs : CompactSize) : List Nat :=
  if cs.value ≤ 0xFC then [cs.value]
  else if cs.value ≤ 0xFFFF then 0xFD :: natToLe 2 cs.value
  else if cs.value ≤ 0xFFFFFFFF then 0xFE :: natToLe 4 cs.value
  else 0xFF :: natToLe 8 cs.value

/-- `CompactSize::from_bytes`: empty check, then the match on the first
byte with its three tagged arms (each guarded by a length check) and the
literal default arm. -/
def CompactSize.fromBytes (bytes : List Nat) : DecodeResult (CompactSize × Nat) :=
  match bytes with
  | [] => .err .insufficientBytes
  | b0 :: rest =>
    if b0 = 0xFD then
      if (b0 :: rest).length < 3 then .err .insufficientBytes
      else .ok (⟨leToNat (rest.take 2)⟩, 3)
    else if b0 = 0xFE then
      if (b0 :: rest).length < 5 then .err .insufficientBytes
      else .ok (⟨leToNat (rest.take 4)⟩, 5)
    else if b0 = 0xFF then
      if (b0 :: rest).length < 9 then .err .insufficientBytes
      else .ok (⟨leToNat (rest.take 8)⟩, 9)
    else .ok (⟨b0⟩, 1)

/-- `OutPoint::to_bytes`: txid bytes followed by `vout` little-endian. -/
def OutPoint.toBytes (o : OutPoint) : List Nat :=
  o.txid.bytes ++ natToLe 4 o.vout

/-- `OutPoint::from_bytes`: requires 36 bytes, splits 32 txid bytes and a
4-byte little-endian vout. -/
def OutPoint.fromBytes (bytes : List Nat) : DecodeResult (OutPoint × Nat) :=
  if bytes.length < 36 then .err .insufficientBytes
  else .ok (⟨⟨bytes.take 32⟩, leToNat ((bytes.drop 32).take 4)⟩, 36)

/-- `Script::to_bytes`: compact-size length prefix followed by the raw
payload.  The `self.bytes.len() as u64` cast is lossless because a Rust
`Vec` holds at most `isize::MAX` elements. -/
def Script.toBytes (s : Script) : List Nat :=
  CompactSize.toBytes ⟨s.bytes.length⟩ ++ s.bytes

/-- `Script::from_bytes`.  The length check and the slice
`bytes[size_bytes..size_bytes + script_len]` both compute
`size_bytes + script_len` in `usize`; when that sum wraps (declared
length close to `2 ^ 64`) the wrapped end lies strictly below the start
index and the slice panics, hence the `panicked` arm.  On every
non-wrapping path this definition is the source line for line. -/
def Script.fromBytes (bytes : List Nat) : DecodeResult (Script × Nat) :=
  match CompactSize.fromBytes bytes with
  | .err e => .err e
  | .panicked => .panicked
  | .ok (size, size_bytes) =>
    let script_len := size.value
    if bytes.length < usizeAdd size_bytes script_len then .err .insufficientBytes
    else if size_bytes ≤ usizeAdd size_bytes script_len then
      .ok (⟨(bytes.drop size_bytes).take (usizeAdd size_bytes script_len - size_bytes)⟩,
        usizeAdd size_bytes script_len)
    else .panicked

/-- `TransactionInput::to_bytes`. -/
def TransactionInput.toBytes (i : TransactionInput) : List Nat :=
  i.previous_output.toBytes ++ i.script_sig.toBytes ++ natToLe 4 i.sequence

/-- `TransactionInput::from_bytes`.  The sums
`outpoint_bytes + script_bytes + 4` cannot wrap: both summands are
bounded by the buffer length (36 from the outpoint check, and the script
consumption is bounded by the length of the tail it was given), so plain
`Nat` addition is exact here. -/
def TransactionInput.fromBytes (bytes : List Nat) : DecodeResult (TransactionInput × Nat) :=
  match OutPoint.fromBytes bytes with
  | .err e => .err e
  | .panicked => .panicked
  | .ok (previous_output, outpoint_bytes) =>
    match Script.fromBytes (bytes.drop outpoint_bytes) with
    | .err e => .err e
    | .panicked => .panicked
    | .ok (script_sig, script_bytes) =>
      if bytes.length < outpoint_bytes + script_bytes + 4 then .err .insufficientBytes
      else
        .ok (⟨previous_output, script_sig,
          leToNat ((bytes.drop (outpoint_bytes + script_bytes)).take 4)⟩,
          outpoint_bytes + script_bytes + 4)

/-- `BitcoinTransaction::to_bytes`: the successive `extend` calls of the
source, as one append chain — version little-endian, compact-size input
count (`self.inputs.len() as u64`, lossless for a Rust `Vec`), every
input in order, lock time little-endian. -/
def BitcoinTransaction.toBytes (t : BitcoinTransaction) : List Nat :=
  natToLe 4 t.version ++ CompactSize.toBytes ⟨t.inputs.length⟩ ++
    (t.inputs.map TransactionInput.toBytes).flatten ++ natToLe 4 t.lock_time

/-- Loop `for _ in 0..input_count.value` of `BitcoinTransaction::from_bytes`:
decode the given number of inputs, threading the offset.  The slice
`&bytes[offset..]` is modelled by `List.drop`; the offset never exceeds
the buffer length on any reachable path (every successful sub-decode
consumes at most the bytes it was handed). -/
def decodeInputs (bytes : List Nat) : Nat → Nat → DecodeResult (List TransactionInput × Nat)
  | 0, offset => .ok ([], offset)
  | n + 1, offset =>
    match TransactionInput.fromBytes (bytes.drop offset) with
    | .err e => .err e
    | .panicked => .panicked
    | .ok (input, input_bytes) =>
      match decodeInputs bytes n (offset + input_bytes) with
      | .err e => .err e
      | .panicked => .panicked
      | .ok (inputs, final) => .ok (input :: inputs, final)

/-- `BitcoinTransaction::from_bytes`: up-front minimum length check of 8
bytes, version from the first 4 bytes, compact-size input count starting
at byte 4, the input loop, then the 4-byte lock time.  `offset + 4`
cannot wrap (the offset is bounded by the buffer length). -/
def BitcoinTransaction.fromBytes (bytes : List Nat) : DecodeResult (BitcoinTransaction × Nat) :=
  if bytes.length < 8 then .err .insufficientBytes
  else
    match CompactSize.fromBytes (bytes.drop 4) with
    | .err e => .err e
    | .panicked => .panicked
    | .ok (input_count, cs_bytes) =>
      match decodeInputs bytes input_count.value (cs_bytes + 4) with
      | .err e => .err e
      | .panicked => .panicked
      | .ok (inputs, offset) =>
        if bytes.length < offset + 4 then .err .insufficientBytes
        else
          .ok (⟨leToNat (bytes.take 4), inputs, leToNat ((bytes.drop offset).take 4)⟩,
            offset + 4)

/-- Hex digit character for a nibble value below 16, lowercase
(digits `0`-`9` then letters `a`-`f`). -/
def hexChar (n : Nat) : Char :=
  if n < 10 then Char.ofNat (48 + n) else Char.ofNat (87 + n)

/-- Modelled from the spec: `hex::encode` of the external `hex` crate
(called by `Serialize for Txid`; the crate is not part of this
repository).  Spec, Identifier Codec: the text form is lowercase hex of
the 32 bytes — two characters per byte, high nibble first. -/
def hexEncode (bs : List Nat) : List Char :=
  (bs.map fun b => [hexChar (b / 16), hexChar (b % 16)]).flatten

/-- Numeric value of a hex digit character, `none` on a non-hex
character; `hex::decode` accepts lowercase and uppercase digits. -/
def hexVal (c : Char) : Option Nat :=
  if 48 ≤ c.toNat ∧ c.toNat ≤ 57 then some (c.toNat - 48)
  else if 97 ≤ c.toNat ∧ c.toNat ≤ 102 then some (c.toNat - 87)
  else if 65 ≤ c.toNat ∧ c.toNat ≤ 70 then some (c.toNat - 55)
  else none

/-- Modelled from the spec: `hex::decode` of the external `hex` crate —
fails on a string of odd length or containing any non-hex character,
otherwise turns each character pair into one byte. -/
def hexDecode : List Char → Option (List Nat)
  | [] => some []
  | [_] => none
  | c1 :: c2 :: rest =>
    match hexVal c1, hexVal c2, hexDecode rest with
    | some hi, some lo, some bs => some ((16 * hi + lo) :: bs)
    | _, _, _ => none

/-- Failure surface of the Txid text boundary: the source maps the hex
decode error and the wrong-length case to two distinct
`serde::de::Error::custom` values. -/
inductive TxidTextError where
  | hexError
  | lengthError
  deriving DecidableEq

/-- `Serialize for Txid`: `hex::encode(self.0)` emitted as a string. -/
def Txid.serializeText (t : Txid) : List Char := hexEncode t.bytes

/-- `Deserialize for Txid`: take a string, hex-decode it (errors become
custom serde errors), then require exactly 32 bytes. -/
def Txid.deserializeText (s : List Char) : Except TxidTextError Txid :=
  match hexDecode s with
  | none => .error .hexError
  | some bs => if bs.length = 32 then .ok ⟨bs⟩ else .error .lengthError

/-- Character class of the lowercase hex alphabet. -/
abbrev isLowerHexDigit (c : Char) : Prop :=
  (48 ≤ c.toNat ∧ c.toNat ≤ 57) ∨ (97 ≤ c.toNat ∧ c.toNat ≤ 102)

/-- Encoding specification transcribed from the words of claim C3: the
minimal-width tagged encoding, range by range. -/
def compactSizeEncodeSpec (v : Nat) : List Nat :=
  if v ≤ 252 then [v]
  else if v ≤ 65535 then 253 :: natToLe 2 v
  else if v ≤ 4294967295 then 254 :: natToLe 4 v
  else 255 :: natToLe 8 v

/-- Decoding specification transcribed from the words of claim C4: the
exact case analysis on the first byte (the final arm is the `0xFF` rule,
which is the only remaining case for a byte-valued head). -/
def compactSizeDecodeSpec (bytes : List Nat) : DecodeResult (CompactSize × Nat) :=
  match bytes with
  | [] => .err .insufficientBytes
  | b :: rest =>
    if b < 253 then .ok (⟨b⟩, 1)
    else if b = 253 then
      if 3 ≤ (b :: rest).length then .ok (⟨leToNat (rest.take 2)⟩, 3)
      else .err .insufficientBytes
    else if b = 254 then
      if 5 ≤ (b :: rest).length then .ok (⟨leToNat (rest.take 4)⟩, 5)
      else .err .insufficientBytes
    else
      if 9 ≤ (b :: rest).length then .ok (⟨leToNat (rest.take 8)⟩, 9)
      else .err .insufficientBytes

/-- Concrete sample input used by witnesses: one input with a 32-byte
txid, a 3-byte script and a `u32` sequence number. -/
def exInput : TransactionInput :=
  ⟨⟨⟨List.replicate 32 7⟩, 5⟩, ⟨[170, 187, 204]⟩, 4294967295⟩

/-- Concrete sample transaction used by witnesses. -/
def exTx : BitcoinTransaction := ⟨1, [exInput], 77⟩

/-! ### Arithmetic and list helper lemmas -/

@[simp] theorem CompactSize.value_mk (v : Nat) : (⟨v⟩ : CompactSize).value = v := rfl

@[simp] theorem txid_bytes_mk (b : List Nat) : (⟨b⟩ : Txid).bytes = b := rfl

@[simp] theorem script_bytes_mk (b : List Nat) : (⟨b⟩ : Script).bytes = b := rfl

theorem natToLe_length : ∀ (k v : Nat), (natToLe k v).length = k
  | 0, _ => rfl
  | k + 1, v => by simp [natToLe, natToLe_length k (v / 256)]

theorem mod_mul_eq (v m : Nat) (hm : 0 < m) :
    v % (256 * m) = v % 256 + 256 * (v / 256 % m) := by
  have e1 : 256 * (v / 256) + v % 256 = v := Nat.div_add_mod v 256
  have e2 : m * (v / 256 / m) + v / 256 % m = v / 256 := Nat.div_add_mod (v / 256) m
  have hlt : 256 * (v / 256 % m) + v % 256 < 256 * m := by
    have hr : v / 256 % m < m := Nat.mod_lt _ hm
    have hs : v % 256 < 256 := Nat.mod_lt _ (by norm_num)
    have := Nat.mul_le_mul_left 256 hr
    omega
  calc v % (256 * m)
      = (256 * (v / 256) + v % 256) % (256 * m) := by rw [e1]
    _ = (256 * (m * (v / 256 / m) + v / 256 % m) + v % 256) % (256 * m) := by rw [e2]
    _ = (256 * m * (v / 256 / m) + (256 * (v / 256 % m) + v % 256)) % (256 * m) := by
        congr 1; ring
    _ = (256 * (v / 256 % m) + v % 256 + 256 * m * (v / 256 / m)) % (256 * m) := by
        congr 1; ring
    _ = (256 * (v / 256 % m) + v % 256) % (256 * m) := by
        rw [Nat.mul_comm (256 * m) (v / 256 / m), Nat.add_mul_mod_self_right]
    _ = 256 * (v / 256 % m) + v % 256 := Nat.mod_eq_of_lt hlt
    _ = v % 256 + 256 * (v / 256 % m) := by ring

theorem leToNat_natToLe : ∀ (k v : Nat), leToNat (natToLe k v) = v % 2 ^ (8 * k)
  | 0, v => by simp [natToLe, leToNat, Nat.mod_one]
  | k + 1, v => by
    have hm : 0 < 2 ^ (8 * k) := Nat.pos_pow_of_pos _ (by norm_num)
    have hp : (2 : Nat) ^ (8 * (k + 1)) = 256 * 2 ^ (8 * k) := by
      rw [show 8 * (k + 1) = 8 + 8 * k by ring, pow_add]; norm_num
    simp only [natToLe, leToNat, leToNat_natToLe k (v / 256), hp]
    rw [mod_mul_eq v _ hm]

theorem leToNat_natToLe_of_lt (k v : Nat) (h : v < 2 ^ (8 * k)) :
    leToNat (natToLe k v) = v := by
  rw [leToNat_natToLe, Nat.mod_eq_of_lt h]

/-! ### CompactSize lemmas -/

theorem cs_toBytes_length (v : Nat) :
    (CompactSize.toBytes ⟨v⟩).length =
      if v ≤ 252 then 1 else if v ≤ 65535 then 3
      else if v ≤ 4294967295 then 5 else 9 := by
  simp only [CompactSize.toBytes, CompactSize.value_mk]
  split_ifs <;> simp [natToLe_length]

theorem cs_toBytes_length_le (v : Nat) : (CompactSize.toBytes ⟨v⟩).length ≤ 9 := by
  rw [cs_toBytes_length]; split_ifs <;> omega

theorem cs_toBytes_length_pos (v : Nat) : 1 ≤ (CompactSize.toBytes ⟨v⟩).length := by
  rw [cs_toBytes_length]; split_ifs <;> omega

theorem cs_fromBytes_cons_fd (rest : List Nat) (h : 2 ≤ rest.length) :
    CompactSize.fromBytes (253 :: rest) = .ok (⟨leToNat (rest.take 2)⟩, 3) := by
  simp only [CompactSize.fromBytes, List.length_cons]
  norm_num
  omega

theorem cs_fromBytes_cons_fe (rest : List Nat) (h : 4 ≤ rest.length) :
    CompactSize.fromBytes (254 :: rest) = .ok (⟨leToNat (rest.take 4)⟩, 5) := by
  simp only [CompactSize.fromBytes, List.length_cons]
  norm_num
  omega

theorem cs_fromBytes_cons_ff (rest : List Nat) (h : 8 ≤ rest.length) :
    CompactSize.fromBytes (255 :: rest) = .ok (⟨leToNat (rest.take 8)⟩, 9) := by
  simp only [CompactSize.fromBytes, List.length_cons]
  norm_num
  omega

theorem cs_fromBytes_cons_lit (b0 : Nat) (rest : List Nat)
    (h1 : b0 ≠ 253) (h2 : b0 ≠ 254) (h3 : b0 ≠ 255) :
    CompactSize.fromBytes (b0 :: rest) = .ok (⟨b0⟩, 1) := by
  simp only [CompactSize.fromBytes, if_neg h1, if_neg h2, if_neg h3]

theorem cs_fromBytes_cons_fd_short (rest : List Nat) (h : rest.length < 2) :
    CompactSize.fromBytes (253 :: rest) = .err .insufficientBytes := by
  simp only [CompactSize.fromBytes, List.length_cons]
  norm_num
  omega

theorem cs_fromBytes_cons_fe_short (rest : List Nat) (h : rest.length < 4) :
    CompactSize.fromBytes (254 :: rest) = .err .insufficientBytes := by
  simp only [CompactSize.fromBytes, List.length_cons]
  norm_num
  omega

theorem cs_fromBytes_cons_ff_short (rest : List Nat) (h : rest.length < 8) :
    CompactSize.fromBytes (255 :: rest) = .err .insufficientBytes := by
  simp only [CompactSize.fromBytes, List.length_cons]
  norm_num
  omega

theorem cs_fromBytes_toBytes (v : Nat) (h : v < 2 ^ 64) (s : List Nat) :
    CompactSize.fromBytes (CompactSize.toBytes ⟨v⟩ ++ s) =
      .ok (⟨v⟩, (CompactSize.toBytes ⟨v⟩).length) := by
  simp only [CompactSize.toBytes, CompactSize.value_mk]
  split_ifs with h1 h2 h3
  · simp only [List.cons_append, List.nil_append]
    rw [cs_fromBytes_cons_lit v s (by omega) (by omega) (by omega)]
    simp
  · simp only [List.cons_append]
    rw [cs_fromBytes_cons_fd _ (by simp [natToLe_length])]
    rw [List.take_left' (natToLe_length 2 v)]
    rw [leToNat_natToLe_of_lt 2 v (by norm_num; omega)]
    simp [natToLe_length]
  · simp only [List.cons_append]
    rw [cs_fromBytes_cons_fe _ (by simp [natToLe_length])]
    rw [List.take_left' (natToLe_length 4 v)]
    rw [leToNat_natToLe_of_lt 4 v (by norm_num; omega)]
    simp [natToLe_length]
  · simp only [List.cons_append]
    rw [cs_fromBytes_cons_ff _ (by simp [natToLe_length])]
    rw [List.take_left' (natToLe_length 8 v)]
    rw [leToNat_natToLe_of_lt 8 v (by norm_num; omega)]
    simp [natToLe_length]

/-! ### OutPoint, Script, TransactionInput roundtrip lemmas -/

theorem op_toBytes_length (o : OutPoint) (h32 : o.txid.wf) : o.toBytes.length = 36 := by
  simp [OutPoint.toBytes, natToLe_length, h32]

theorem op_fromBytes_toBytes (o : OutPoint) (h : o.wf) (s : List Nat) :
    OutPoint.fromBytes (o.toBytes ++ s) = .ok (o, 36) := by
  obtain ⟨h32, hv⟩ := h
  unfold OutPoint.toBytes OutPoint.fromBytes
  rw [List.append_assoc]
  split_ifs with hc
  · exfalso
    simp only [List.length_append, natToLe_length, h32] at hc
    omega
  · rw [List.take_left' h32, List.drop_left' h32,
      List.take_left' (natToLe_length 4 o.vout),
      leToNat_natToLe_of_lt 4 _ (by norm_num; omega)]

theorem script_fromBytes_toBytes (sc : Script) (h : sc.wf) (s : List Nat) :
    Script.fromBytes (sc.toBytes ++ s) = .ok (sc, sc.toBytes.length) := by
  unfold Script.toBytes Script.fromBytes
  rw [List.append_assoc]
  rw [cs_fromBytes_toBytes sc.bytes.length (by simp [Script.wf] at h; omega) (sc.bytes ++ s)]
  dsimp only [CompactSize.value_mk]
  have hSle : (CompactSize.toBytes ⟨sc.bytes.length⟩).length ≤ 9 := cs_toBytes_length_le _
  have hadd : usizeAdd (CompactSize.toBytes ⟨sc.bytes.length⟩).length sc.bytes.length
      = (CompactSize.toBytes ⟨sc.bytes.length⟩).length + sc.bytes.length := by
    unfold usizeAdd
    apply Nat.mod_eq_of_lt
    simp only [Script.wf] at h
    omega
  rw [hadd]
  rw [if_neg (by simp only [List.length_append]; omega)]
  rw [if_pos (Nat.le_add_right _ _)]
  rw [List.drop_left' rfl, Nat.add_sub_cancel_left, List.take_left' rfl]
  simp [List.length_append]

theorem input_fromBytes_toBytes (i : TransactionInput) (h : i.wf) (s : List Nat) :
    TransactionInput.fromBytes (i.toBytes ++ s) = .ok (i, i.toBytes.length) := by
  obtain ⟨hop, hsc, hseq⟩ := h
  unfold TransactionInput.toBytes TransactionInput.fromBytes
  rw [List.append_assoc, List.append_assoc]
  rw [op_fromBytes_toBytes i.previous_output hop _]
  dsimp only
  rw [List.drop_left' (op_toBytes_length i.previous_output hop.1)]
  rw [script_fromBytes_toBytes i.script_sig hsc _]
  dsimp only
  split_ifs with hc
  · exfalso
    simp only [List.length_append, natToLe_length,
      op_toBytes_length i.previous_output hop.1] at hc
    omega
  · rw [← List.drop_drop, List.drop_left' (op_toBytes_length i.previous_output hop.1),
      List.drop_left' rfl, List.take_left' (natToLe_length 4 i.sequence),
      leToNat_natToLe_of_lt 4 _ (by norm_num; omega)]
    simp only [List.length_append, natToLe_length,
      op_toBytes_length i.previous_output hop.1]

theorem decodeInputs_append (inputs : List TransactionInput) :
    ∀ (bytes s : List Nat) (offset : Nat),
      (∀ i ∈ inputs, i.wf) →
      bytes.drop offset = (inputs.map TransactionInput.toBytes).flatten ++ s →
      decodeInputs bytes inputs.length offset =
        .ok (inputs, offset + ((inputs.map TransactionInput.toBytes).flatten).length) := by
  induction inputs with
  | nil =>
    intro bytes s offset _ _
    simp [decodeInputs]
  | cons i rest ih =>
    intro bytes s offset hwf hdrop
    have hmem : i.wf := hwf i (by simp)
    have hwfrest : ∀ j ∈ rest, j.wf := fun j hj => hwf j (by simp [hj])
    have hdrop1 : bytes.drop offset =
        i.toBytes ++ ((rest.map TransactionInput.toBytes).flatten ++ s) := by
      simpa [List.append_assoc] using hdrop
    have hk : bytes.drop (offset + i.toBytes.length) =
        (rest.map TransactionInput.toBytes).flatten ++ s := by
      rw [← List.drop_drop, hdrop1, List.drop_left' rfl]
    simp only [List.length_cons, decodeInputs, hdrop1]
    rw [input_fromBytes_toBytes i hmem _]
    dsimp only
    rw [ih bytes s (offset + i.toBytes.length) hwfrest hk]
    dsimp only
    simp [List.length_append, Nat.add_assoc]

theorem tx_decode_core (t : BitcoinTransaction) (h : t.wf) (tail : List Nat)
    (htail : 3 ≤ tail.length) :
    BitcoinTransaction.fromBytes
        (natToLe 4 t.version ++ (CompactSize.toBytes ⟨t.inputs.length⟩ ++
          ((t.inputs.map TransactionInput.toBytes).flatten ++ tail))) =
      if tail.length < 4 then .err .insufficientBytes
      else .ok (⟨t.version, t.inputs, leToNat (tail.take 4)⟩,
        (CompactSize.toBytes ⟨t.inputs.length⟩).length + 4 +
          ((t.inputs.map TransactionInput.toBytes).flatten).length + 4) := by
  obtain ⟨hver, hlock, hcnt, hwf⟩ := h
  have hcsp := cs_toBytes_length_pos t.inputs.length
  unfold BitcoinTransaction.fromBytes
  rw [if_neg (by simp only [List.length_append, natToLe_length]; omega)]
  rw [List.drop_left' (natToLe_length 4 t.version)]
  rw [cs_fromBytes_toBytes t.inputs.length hcnt _]
  dsimp only
  have hdropcs : (natToLe 4 t.version ++ (CompactSize.toBytes ⟨t.inputs.length⟩ ++
      ((t.inputs.map TransactionInput.toBytes).flatten ++ tail))).drop
        ((CompactSize.toBytes ⟨t.inputs.length⟩).length + 4) =
      (t.inputs.map TransactionInput.toBytes).flatten ++ tail := by
    rw [Nat.add_comm, ← List.drop_drop, List.drop_left' (natToLe_length 4 t.version),
      List.drop_left' rfl]
  rw [decodeInputs_append t.inputs _ tail _ hwf hdropcs]
  dsimp only
  have hdropall : (natToLe 4 t.version ++ (CompactSize.toBytes ⟨t.inputs.length⟩ ++
      ((t.inputs.map TransactionInput.toBytes).flatten ++ tail))).drop
        ((CompactSize.toBytes ⟨t.inputs.length⟩).length + 4 +
          ((t.inputs.map TransactionInput.toBytes).flatten).length) = tail := by
    rw [← List.drop_drop, hdropcs, List.drop_left' rfl]
  by_cases h4 : tail.length < 4
  · rw [if_pos (by simp only [List.length_append, natToLe_length]; omega),
      if_pos h4]
  · rw [if_neg (by simp only [List.length_append, natToLe_length]; omega),
      if_neg h4]
    rw [List.take_left' (natToLe_length 4 t.version),
      leToNat_natToLe_of_lt 4 _ (by norm_num; omega)]
    rw [hdropall]

theorem tx_fromBytes_toBytes (t : BitcoinTransaction) (h : t.wf) (s : List Nat) :
    BitcoinTransaction.fromBytes (t.toBytes ++ s) = .ok (t, t.toBytes.length) := by
  have hlock : t.lock_time < 2 ^ 32 := h.2.1
  unfold BitcoinTransaction.toBytes
  rw [List.append_assoc, List.append_assoc, List.append_assoc]
  rw [tx_decode_core t h (natToLe 4 t.lock_time ++ s)
    (by simp only [List.length_append, natToLe_length]; omega)]
  rw [if_neg (by simp [natToLe_length, List.length_append])]
  rw [List.take_left' (natToLe_length 4 t.lock_time),
    leToNat_natToLe_of_lt 4 _ (by norm_num; omega)]
  simp only [List.length_append, natToLe_length, DecodeResult.ok.injEq, Prod.mk.injEq]
  exact ⟨trivial, by omega⟩

/-! ### Error-surface lemmas: every binary decode error is InsufficientBytes -/

theorem cs_fromBytes_err_eq (bs : List Nat) (e : BitcoinError)
    (h : CompactSize.fromBytes bs = .err e) : e = .insufficientBytes := by
  cases bs with
  | nil =>
    simp only [CompactSize.fromBytes, DecodeResult.err.injEq] at h
    exact h.symm
  | cons b rest =>
    simp only [CompactSize.fromBytes] at h
    split_ifs at h <;> simp_all

theorem cs_fromBytes_ne_panicked (bs : List Nat) :
    CompactSize.fromBytes bs ≠ .panicked := by
  cases bs with
  | nil => simp [CompactSize.fromBytes]
  | cons b rest =>
    simp only [CompactSize.fromBytes]
    split_ifs <;> simp

theorem cs_fromBytes_ok_le (bs : List Nat) (c : CompactSize) (sz : Nat)
    (h : CompactSize.fromBytes bs = .ok (c, sz)) : 1 ≤ sz ∧ sz ≤ bs.length := by
  cases bs with
  | nil => simp [CompactSize.fromBytes] at h
  | cons b rest =>
    simp only [CompactSize.fromBytes] at h
    split_ifs at h <;> simp_all <;> omega

theorem op_fromBytes_err_eq (bs : List Nat) (e : BitcoinError)
    (h : OutPoint.fromBytes bs = .err e) : e = .insufficientBytes := by
  unfold OutPoint.fromBytes at h
  split_ifs at h <;> simp_all

theorem op_fromBytes_ne_panicked (bs : List Nat) :
    OutPoint.fromBytes bs ≠ .panicked := by
  unfold OutPoint.fromBytes
  split_ifs <;> simp

theorem script_fromBytes_err_eq (bs : List Nat) (e : BitcoinError)
    (h : Script.fromBytes bs = .err e) : e = .insufficientBytes := by
  unfold Script.fromBytes at h
  rcases hcs : CompactSize.fromBytes bs with ⟨c, sz⟩ | e2 | _
  · rw [hcs] at h
    dsimp only at h
    split_ifs at h <;> simp_all
  · rw [hcs] at h
    dsimp only at h
    simp only [DecodeResult.err.injEq] at h
    exact h ▸ cs_fromBytes_err_eq bs e2 hcs
  · exact absurd hcs (cs_fromBytes_ne_panicked bs)

theorem input_fromBytes_err_eq (bs : List Nat) (e : BitcoinError)
    (h : TransactionInput.fromBytes bs = .err e) : e = .insufficientBytes := by
  unfold TransactionInput.fromBytes at h
  rcases hop : OutPoint.fromBytes bs with ⟨po, ob⟩ | e2 | _
  · rw [hop] at h
    dsimp only at h
    rcases hsc : Script.fromBytes (bs.drop ob) with ⟨ss, sb⟩ | e3 | _
    · rw [hsc] at h
      dsimp only at h
      split_ifs at h <;> simp_all
    · rw [hsc] at h
      dsimp only at h
      simp only [DecodeResult.err.injEq] at h
      exact h ▸ script_fromBytes_err_eq _ e3 hsc
    · rw [hsc] at h
      dsimp only at h
      simp at h
  · rw [hop] at h
    dsimp only at h
    simp only [DecodeResult.err.injEq] at h
    exact h ▸ op_fromBytes_err_eq bs e2 hop
  · exact absurd hop (op_fromBytes_ne_panicked bs)

theorem decodeInputs_err_eq (bytes : List Nat) :
    ∀ (n offset : Nat) (e : BitcoinError),
      decodeInputs bytes n offset = .err e → e = .insufficientBytes := by
  intro n
  induction n with
  | zero => intro offset e h; simp [decodeInputs] at h
  | succ m ih =>
    intro offset e h
    simp only [decodeInputs] at h
    rcases hin : TransactionInput.fromBytes (bytes.drop offset) with ⟨inp, k⟩ | e2 | _
    · rw [hin] at h
      dsimp only at h
      rcases hrec : decodeInputs bytes m (offset + k) with ⟨rest, fin⟩ | e3 | _
      · rw [hrec] at h
        dsimp only at h
        simp at h
      · rw [hrec] at h
        dsimp only at h
        simp only [DecodeResult.err.injEq] at h
        exact h ▸ ih (offset + k) e3 hrec
      · rw [hrec] at h
        dsimp only at h
        simp at h
    · rw [hin] at h
      dsimp only at h
      simp only [DecodeResult.err.injEq] at h
      exact h ▸ input_fromBytes_err_eq _ e2 hin
    · rw [hin] at h
      dsimp only at h
      simp at h

theorem tx_fromBytes_err_eq (bs : List Nat) (e : BitcoinError)
    (h : BitcoinTransaction.fromBytes bs = .err e) : e = .insufficientBytes := by
  unfold BitcoinTransaction.fromBytes at h
  split_ifs at h with h8
  · simp only [DecodeResult.err.injEq] at h
    exact h.symm
  · rcases hcs : CompactSize.fromBytes (bs.drop 4) with ⟨c, sz⟩ | e2 | _
    · rw [hcs] at h
      dsimp only at h
      rcases hdi : decodeInputs bs c.value (sz + 4) with ⟨ins, off⟩ | e3 | _
      · rw [hdi] at h
        dsimp only at h
        split_ifs at h <;> simp_all
      · rw [hdi] at h
        dsimp only at h
        simp only [DecodeResult.err.injEq] at h
        exact h ▸ decodeInputs_err_eq bs c.value (sz + 4) e3 hdi
      · rw [hdi] at h
        dsimp only at h
        simp at h
    · rw [hcs] at h
      dsimp only at h
      simp only [DecodeResult.err.injEq] at h
      exact h ▸ cs_fromBytes_err_eq _ e2 hcs
    · exact absurd hcs (cs_fromBytes_ne_panicked _)

theorem input_fromBytes_short (b : List Nat) (h : b.length < 36) :
    TransactionInput.fromBytes b = .err .insufficientBytes := by
  unfold TransactionInput.fromBytes OutPoint.fromBytes
  rw [if_pos h]

theorem decodeInputs_short (bytes : List Nat) (n offset : Nat) (hn : n ≠ 0)
    (h : (bytes.drop offset).length < 36) :
    decodeInputs bytes n offset = .err .insufficientBytes := by
  cases n with
  | zero => exact absurd rfl hn
  | succ m =>
    simp only [decodeInputs]
    rw [input_fromBytes_short _ h]

theorem tx_fromBytes_length_eight (b : List Nat) (h : b.length = 8) :
    BitcoinTransaction.fromBytes b = .err .insufficientBytes := by
  unfold BitcoinTransaction.fromBytes
  rw [if_neg (by omega)]
  rcases hcs : CompactSize.fromBytes (b.drop 4) with ⟨c, sz⟩ | e | _
  · obtain ⟨hsz1, hsz2⟩ := cs_fromBytes_ok_le _ _ _ hcs
    have hd4 : (b.drop 4).length = 4 := by simp [h]
    dsimp only
    rcases Nat.eq_zero_or_pos c.value with hv | hv
    · rw [hv]
      simp only [decodeInputs]
      rw [if_pos (by omega)]
    · rw [decodeInputs_short b c.value (sz + 4) (by omega)
        (by simp only [List.length_drop]; omega)]
  · dsimp only
    rw [cs_fromBytes_err_eq _ _ hcs]
  · exact absurd hcs (cs_fromBytes_ne_panicked _)

/-! ### Truncation lemmas: dropping the last byte of a valid frame fails -/

theorem cs_truncation (v : Nat) :
    CompactSize.fromBytes ((CompactSize.toBytes ⟨v⟩).dropLast) = .err .insufficientBytes := by
  simp only [CompactSize.toBytes, CompactSize.value_mk]
  split_ifs with h1 h2 h3
  · simp [CompactSize.fromBytes]
  · rw [show natToLe 2 v = [v % 256, v / 256 % 256] from rfl]
    exact cs_fromBytes_cons_fd_short [v % 256] (by simp)
  · rw [show natToLe 4 v = [v % 256, v / 256 % 256, v / 256 / 256 % 256,
      v / 256 / 256 / 256 % 256] from rfl]
    exact cs_fromBytes_cons_fe_short _ (by simp)
  · rw [show natToLe 8 v = [v % 256, v / 256 % 256, v / 256 / 256 % 256,
      v / 256 / 256 / 256 % 256, v / 256 / 256 / 256 / 256 % 256,
      v / 256 / 256 / 256 / 256 / 256 % 256, v / 256 / 256 / 256 / 256 / 256 / 256 % 256,
      v / 256 / 256 / 256 / 256 / 256 / 256 / 256 % 256] from rfl]
    exact cs_fromBytes_cons_ff_short _ (by simp)

theorem op_truncation (o : OutPoint) (h : o.wf) :
    OutPoint.fromBytes (o.toBytes.dropLast) = .err .insufficientBytes := by
  have hlen : (o.toBytes.dropLast).length < 36 := by
    simp [List.length_dropLast, op_toBytes_length o h.1]
  unfold OutPoint.fromBytes
  rw [if_pos hlen]

theorem script_truncation (sc : Script) (h : sc.wf) :
    Script.fromBytes (sc.toBytes.dropLast) = .err .insufficientBytes := by
  rcases sc with ⟨bytes⟩
  cases bytes with
  | nil => decide
  | cons b0 bs =>
    simp only [Script.wf, script_bytes_mk] at h
    unfold Script.toBytes
    rw [List.dropLast_append_of_ne_nil _ (by simp)]
    unfold Script.fromBytes
    rw [cs_fromBytes_toBytes (b0 :: bs).length (by omega) ((b0 :: bs).dropLast)]
    dsimp only [CompactSize.value_mk]
    have hcsl := cs_toBytes_length_le (b0 :: bs).length
    have hadd : usizeAdd (CompactSize.toBytes ⟨(b0 :: bs).length⟩).length (b0 :: bs).length =
        (CompactSize.toBytes ⟨(b0 :: bs).length⟩).length + (b0 :: bs).length := by
      unfold usizeAdd
      apply Nat.mod_eq_of_lt
      omega
    rw [hadd]
    rw [if_pos (by
      simp only [List.length_append, List.length_dropLast, List.length_cons]
      omega)]

theorem input_truncation (i : TransactionInput) (h : i.wf) :
    TransactionInput.fromBytes (i.toBytes.dropLast) = .err .insufficientBytes := by
  obtain ⟨hop, hsc, hseq⟩ := h
  unfold TransactionInput.toBytes
  rw [List.dropLast_append_of_ne_nil _ (by simp [natToLe])]
  rw [List.append_assoc]
  unfold TransactionInput.fromBytes
  rw [op_fromBytes_toBytes i.previous_output hop _]
  dsimp only
  rw [List.drop_left' (op_toBytes_length i.previous_output hop.1)]
  rw [script_fromBytes_toBytes i.script_sig hsc _]
  dsimp only
  rw [if_pos (by
    simp only [List.length_append, List.length_dropLast, natToLe_length,
      op_toBytes_length i.previous_output hop.1]
    omega)]

theorem tx_truncation (t : BitcoinTransaction) (h : t.wf) :
    BitcoinTransaction.fromBytes (t.toBytes.dropLast) = .err .insufficientBytes := by
  unfold BitcoinTransaction.toBytes
  rw [List.dropLast_append_of_ne_nil _ (by simp [natToLe])]
  rw [List.append_assoc, List.append_assoc]
  rw [tx_decode_core t h ((natToLe 4 t.lock_time).dropLast)
    (by simp [List.length_dropLast, natToLe_length])]
  rw [if_pos (by simp [List.length_dropLast, natToLe_length])]

/-! ### Hex text lemmas -/

theorem hexVal_hexChar (n : Nat) (h : n < 16) : hexVal (hexChar n) = some n := by
  interval_cases n <;> decide

theorem hexChar_lower (n : Nat) (h : n < 16) : isLowerHexDigit (hexChar n) := by
  interval_cases n <;> decide

theorem hexEncode_cons (b : Nat) (bs : List Nat) :
    hexEncode (b :: bs) = hexChar (b / 16) :: hexChar (b % 16) :: hexEncode bs := rfl

theorem hexEncode_length (bs : List Nat) : (hexEncode bs).length = 2 * bs.length := by
  induction bs with
  | nil => rfl
  | cons b rest ih =>
    rw [hexEncode_cons]
    simp only [List.length_cons, ih]
    omega

theorem hexEncode_mem_lower (bs : List Nat) (h : ∀ b ∈ bs, b < 256) :
    ∀ c ∈ hexEncode bs, isLowerHexDigit c := by
  induction bs with
  | nil => simp [hexEncode]
  | cons b rest ih =>
    have hb : b < 256 := h b (by simp)
    rw [hexEncode_cons]
    intro c hc
    rcases List.mem_cons.mp hc with h1 | hc2
    · exact h1 ▸ hexChar_lower (b / 16) (by omega)
    · rcases List.mem_cons.mp hc2 with h2 | hc3
      · exact h2 ▸ hexChar_lower (b % 16) (by omega)
      · exact ih (fun x hx => h x (by simp [hx])) c hc3

theorem hexDecode_hexEncode (bs : List Nat) (h : ∀ b ∈ bs, b < 256) :
    hexDecode (hexEncode bs) = some bs := by
  induction bs with
  | nil => rfl
  | cons b rest ih =>
    have hb : b < 256 := h b (by simp)
    rw [hexEncode_cons]
    simp only [hexDecode, hexVal_hexChar (b / 16) (by omega),
      hexVal_hexChar (b % 16) (by omega), ih (fun x hx => h x (by simp [hx]))]
    rw [Nat.div_add_mod]

theorem hexDecode_length : ∀ (s : List Char) (bs : List Nat),
    hexDecode s = some bs → s.length = 2 * bs.length
  | [], bs => by
    intro h
    simp only [hexDecode, Option.some.injEq] at h
    subst h
    rfl
  | [c], bs => by
    intro h
    simp [hexDecode] at h
  | c1 :: c2 :: rest, bs => by
    intro h
    simp only [hexDecode] at h
    cases hv1 : hexVal c1 with
    | none => rw [hv1] at h; simp at h
    | some a =>
      cases hv2 : hexVal c2 with
      | none => rw [hv1, hv2] at h; simp at h
      | some b2 =>
        cases hd : hexDecode rest with
        | none => rw [hv1, hv2, hd] at h; simp at h
        | some tl =>
          rw [hv1, hv2, hd] at h
          simp only [Option.some.injEq] at h
          subst h
          have := hexDecode_length rest tl hd
          simp only [List.length_cons, this]
          omega

theorem hexDecode_none_of_bad : ∀ (s : List Char) (c : Char),
    c ∈ s → hexVal c = none → hexDecode s = none
  | [], c => by
    intro hc
    simp at hc
  | [c1], c => by
    intro _ _
    rfl
  | c1 :: c2 :: rest, c => by
    intro hc hbad
    simp only [hexDecode]
    rcases List.mem_cons.mp hc with h1 | hc2
    · subst h1
      rw [hbad]
    · rcases List.mem_cons.mp hc2 with h2 | hrest
      · subst h2
        rw [hbad]
        cases hexVal c1 <;> rfl
      · rw [hexDecode_none_of_bad rest c hrest hbad]
        cases hexVal c1 <;> cases hexVal c2 <;> rfl

/-! ### Claim theorems -/

/-- C1: for every transaction value the Rust type can hold (32-byte
txids, `u32` fields, list and script lengths in machine range) and every
trailing byte suffix `s`, `BitcoinTransaction::from_bytes` applied to
`to_bytes T ++ s` returns `Ok (T, length (to_bytes T))`: the decode
reconstructs `T` exactly, reports exactly the encoding length as
consumed, and does not treat the trailing bytes as an error. -/
theorem claim_C1_tx_roundtrip_trailing (t : BitcoinTransaction) (h : t.wf) (s : List Nat) :
    BitcoinTransaction.fromBytes (t.toBytes ++ s) = .ok (t, t.toBytes.length) :=
  tx_fromBytes_toBytes t h s

/-- Witness for C1 at a concrete one-input transaction with two trailing bytes. -/
theorem claim_C1_tx_roundtrip_trailing_witness :
    exTx.wf ∧
      BitcoinTransaction.fromBytes (exTx.toBytes ++ [9, 9]) = .ok (exTx, exTx.toBytes.length) :=
  ⟨by decide, claim_C1_tx_roundtrip_trailing exTx (by decide) [9, 9]⟩

/-- C2, evaluation of the code at the failing input: on the 9-byte
buffer `FF FF FF FF FF FF FF FF FF` (declared payload length
`2 ^ 64 - 1`) `Script::from_bytes` panics — the claim says it should
return `Err(InsufficientBytes)` — because `size_bytes + script_len`
overflows `usize`: debug builds abort on the addition, release builds
wrap to end index 8 and the slice `bytes[9..8]` aborts. -/
theorem claim_C2_script_len_overflow :
    Script.fromBytes [255, 255, 255, 255, 255, 255, 255, 255, 255] = .panicked := by
  decide

/-- C3: `CompactSize::to_bytes` equals the minimal-width tagged encoding
spelled out by the claim, and hits every boundary case (252 / 253 /
65535 / 65536 / 4294967295 / 4294967296) with the stated widths and
marker bytes. -/
theorem claim_C3_cs_encode_minimal (v : Nat) (h : v < 2 ^ 64) :
    CompactSize.toBytes ⟨v⟩ = compactSizeEncodeSpec v ∧
      (CompactSize.toBytes ⟨252⟩).length = 1 ∧
      (CompactSize.toBytes ⟨253⟩).length = 3 ∧
      (CompactSize.toBytes ⟨253⟩).head? = some 253 ∧
      (CompactSize.toBytes ⟨65535⟩).length = 3 ∧
      (CompactSize.toBytes ⟨65536⟩).length = 5 ∧
      (CompactSize.toBytes ⟨65536⟩).head? = some 254 ∧
      (CompactSize.toBytes ⟨4294967295⟩).length = 5 ∧
      (CompactSize.toBytes ⟨4294967296⟩).length = 9 ∧
      (CompactSize.toBytes ⟨4294967296⟩).head? = some 255 :=
  ⟨rfl, by decide, by decide, by decide, by decide, by decide, by decide,
    by decide, by decide, by decide⟩

/-- Witness for C3 at the concrete value 300. -/
theorem claim_C3_cs_encode_minimal_witness :
    (300 : Nat) < 2 ^ 64 ∧ CompactSize.toBytes ⟨300⟩ = compactSizeEncodeSpec 300 :=
  ⟨by decide, (claim_C3_cs_encode_minimal 300 (by decide)).1⟩

/-- C4: `CompactSize::from_bytes` satisfies the exact case analysis of
the claim on every byte buffer, and accepts the non-minimal encoding
`FD 0A 00` as the value 10 with 3 bytes consumed. -/
theorem claim_C4_cs_decode_cases (bytes : List Nat) (h : ∀ b ∈ bytes, b < 256) :
    CompactSize.fromBytes bytes = compactSizeDecodeSpec bytes ∧
      CompactSize.fromBytes [253, 10, 0] = .ok (⟨10⟩, 3) := by
  refine ⟨?_, by decide⟩
  cases bytes with
  | nil => rfl
  | cons b rest =>
    have hb : b < 256 := h b (by simp)
    by_cases h1 : b = 253
    · subst h1
      simp only [CompactSize.fromBytes, compactSizeDecodeSpec]
      norm_num
      split_ifs <;> first | rfl | omega
    · by_cases h2 : b = 254
      · subst h2
        simp only [CompactSize.fromBytes, compactSizeDecodeSpec]
        norm_num
        split_ifs <;> first | rfl | omega
      · by_cases h3 : b = 255
        · subst h3
          simp only [CompactSize.fromBytes, compactSizeDecodeSpec]
          norm_num
          split_ifs <;> first | rfl | omega
        · simp only [CompactSize.fromBytes, compactSizeDecodeSpec,
            if_neg h1, if_neg h2, if_neg h3, if_pos (show b < 253 by omega)]

/-- Witness for C4 at the non-minimal buffer `FD 0A 00`. -/
theorem claim_C4_cs_decode_cases_witness :
    CompactSize.fromBytes [253, 10, 0] = compactSizeDecodeSpec [253, 10, 0] ∧
      CompactSize.fromBytes [253, 10, 0] = .ok (⟨10⟩, 3) :=
  claim_C4_cs_decode_cases [253, 10, 0] (by decide)

/-- C5: for every value of each of the five codec types (as constrained
by its Rust type), decoding its encoding with the last byte removed
fails with `InsufficientBytes` — removing the final byte of a valid
frame never silently succeeds. -/
theorem claim_C5_truncation :
    (∀ v : Nat, v < 2 ^ 64 →
      CompactSize.fromBytes ((CompactSize.toBytes ⟨v⟩).dropLast) = .err .insufficientBytes) ∧
    (∀ o : OutPoint, o.wf →
      OutPoint.fromBytes (o.toBytes.dropLast) = .err .insufficientBytes) ∧
    (∀ sc : Script, sc.wf →
      Script.fromBytes (sc.toBytes.dropLast) = .err .insufficientBytes) ∧
    (∀ i : TransactionInput, i.wf →
      TransactionInput.fromBytes (i.toBytes.dropLast) = .err .insufficientBytes) ∧
    (∀ t : BitcoinTransaction, t.wf →
      BitcoinTransaction.fromBytes (t.toBytes.dropLast) = .err .insufficientBytes) :=
  ⟨fun v _ => cs_truncation v, op_truncation, script_truncation,
    input_truncation, tx_truncation⟩

/-- Witness for C5 at a concrete transaction. -/
theorem claim_C5_truncation_witness :
    exTx.wf ∧
      BitcoinTransaction.fromBytes (exTx.toBytes.dropLast) = .err .insufficientBytes :=
  ⟨by decide, claim_C5_truncation.2.2.2.2 exTx (by decide)⟩

/-- C6: `BitcoinTransaction::to_bytes` is the concatenation version
(4 bytes little-endian) ++ compact-size input count ++ the inputs in
order ++ lock time (4 bytes little-endian); the transaction with
version 1, no inputs and lock time 0 encodes to exactly the nine bytes
`01 00 00 00 00 00 00 00 00`, and decoding those nine bytes returns that
transaction with 9 bytes consumed. -/
theorem claim_C6_tx_encode_layout :
    (∀ t : BitcoinTransaction, t.toBytes =
      natToLe 4 t.version ++ CompactSize.toBytes ⟨t.inputs.length⟩ ++
        (t.inputs.map TransactionInput.toBytes).flatten ++ natToLe 4 t.lock_time) ∧
    (⟨1, [], 0⟩ : BitcoinTransaction).toBytes = [1, 0, 0, 0, 0, 0, 0, 0, 0] ∧
    BitcoinTransaction.fromBytes [1, 0, 0, 0, 0, 0, 0, 0, 0] = .ok (⟨1, [], 0⟩, 9) :=
  ⟨fun _ => rfl, by decide, by decide⟩

/-- C8: the empty buffer fails with `InsufficientBytes` in all five
binary decoders, and `BitcoinTransaction::from_bytes` rejects every
buffer shorter than 8 bytes the same way, via its up-front length
check. -/
theorem claim_C8_empty_buffers :
    CompactSize.fromBytes [] = .err .insufficientBytes ∧
    OutPoint.fromBytes [] = .err .insufficientBytes ∧
    Script.fromBytes [] = .err .insufficientBytes ∧
    TransactionInput.fromBytes [] = .err .insufficientBytes ∧
    BitcoinTransaction.fromBytes [] = .err .insufficientBytes ∧
    ∀ b : List Nat, b.length < 8 →
      BitcoinTransaction.fromBytes b = .err .insufficientBytes := by
  refine ⟨by decide, by decide, by decide, by decide, by decide, fun b hb => ?_⟩
  unfold BitcoinTransaction.fromBytes
  rw [if_pos hb]

/-- Witness for C8 at a concrete 3-byte buffer. -/
theorem claim_C8_empty_buffers_witness :
    ([0, 0, 0] : List Nat).length < 8 ∧
      BitcoinTransaction.fromBytes [0, 0, 0] = .err .insufficientBytes :=
  ⟨by decide, claim_C8_empty_buffers.2.2.2.2.2 [0, 0, 0] (by decide)⟩

/-- C9: every error any of the five binary decoders returns is
`InsufficientBytes` — `InvalidFormat` is unreachable from binary decode
paths, as the claim says.  The final conjunct is the refuting half: the
claim also says each decoder "either succeeds or fails with
InsufficientBytes", but on a transaction whose input carries the
`Script::from_bytes` overflow payload the decoder does neither — it
panics (see C2). -/
theorem claim_C9_error_surface :
    (∀ bs e, CompactSize.fromBytes bs = .err e → e = .insufficientBytes) ∧
    (∀ bs e, OutPoint.fromBytes bs = .err e → e = .insufficientBytes) ∧
    (∀ bs e, Script.fromBytes bs = .err e → e = .insufficientBytes) ∧
    (∀ bs e, TransactionInput.fromBytes bs = .err e → e = .insufficientBytes) ∧
    (∀ bs e, BitcoinTransaction.fromBytes bs = .err e → e = .insufficientBytes) ∧
    BitcoinTransaction.fromBytes
        ([1, 0, 0, 0, 1] ++ (List.replicate 36 0 ++ List.replicate 9 255)) = .panicked :=
  ⟨cs_fromBytes_err_eq, op_fromBytes_err_eq, script_fromBytes_err_eq,
    input_fromBytes_err_eq, tx_fromBytes_err_eq, by decide⟩

/-- Witness for C9 applying the first conjunct at the concrete truncated
buffer `FD`. -/
theorem claim_C9_error_surface_witness :
    CompactSize.fromBytes [253] = .err .insufficientBytes ∧
      BitcoinError.insufficientBytes = BitcoinError.insufficientBytes :=
  ⟨by decide, claim_C9_error_surface.1 [253] .insufficientBytes (by decide)⟩

/-- C10: every buffer of exactly 8 bytes passes the up-front length
check of `BitcoinTransaction::from_bytes` but still fails with
`InsufficientBytes`, whatever its contents: the count decode, an input
decode, or the final lock-time read runs out of bytes. -/
theorem claim_C10_tx_eight_bytes (b : List Nat) (h : b.length = 8) :
    BitcoinTransaction.fromBytes b = .err .insufficientBytes :=
  tx_fromBytes_length_eight b h

/-- Witness for C10 at the all-zero 8-byte buffer. -/
theorem claim_C10_tx_eight_bytes_witness :
    (List.replicate 8 0 : List Nat).length = 8 ∧
      BitcoinTransaction.fromBytes (List.replicate 8 0) = .err .insufficientBytes :=
  ⟨by decide, claim_C10_tx_eight_bytes (List.replicate 8 0) (by decide)⟩

/-- C7: hex-serializing any 32-byte identifier yields a 64-character
lowercase-hex string whose deserialization returns the original bytes;
and deserializing any string that is not 64 characters long or contains
a non-hex character fails with a (custom) format error. -/
theorem claim_C7_txid_text_roundtrip :
    (∀ t : Txid, t.wf → (∀ b ∈ t.bytes, b < 256) →
      Txid.deserializeText (Txid.serializeText t) = .ok t ∧
      (Txid.serializeText t).length = 64 ∧
      ∀ c ∈ Txid.serializeText t, isLowerHexDigit c) ∧
    (∀ s : List Char, s.length ≠ 64 ∨ (∃ c ∈ s, hexVal c = none) →
      ∃ e, Txid.deserializeText s = .error e) := by
  constructor
  · intro t hwf hbytes
    refine ⟨?_, ?_, ?_⟩
    · unfold Txid.serializeText Txid.deserializeText
      rw [hexDecode_hexEncode t.bytes hbytes]
      dsimp only
      rw [if_pos hwf]
    · unfold Txid.serializeText
      rw [hexEncode_length, hwf]
    · exact hexEncode_mem_lower t.bytes hbytes
  · intro s hs
    cases hd : hexDecode s with
    | none =>
      refine ⟨.hexError, ?_⟩
      unfold Txid.deserializeText
      rw [hd]
    | some bs =>
      have hlen2 := hexDecode_length s bs hd
      have hnobad : ∀ c ∈ s, hexVal c ≠ none := by
        intro c hc hbad
        rw [hexDecode_none_of_bad s c hc hbad] at hd
        exact Option.noConfusion hd
      have hne : s.length ≠ 64 := by
        rcases hs with h | ⟨c, hc, hbad⟩
        · exact h
        · exact absurd hbad (hnobad c hc)
      refine ⟨.lengthError, ?_⟩
      unfold Txid.deserializeText
      rw [hd]
      dsimp only
      rw [if_neg (by omega)]

/-- Witness for C7 at the all-zero identifier and at the non-hex
one-character string `z`. -/
theorem claim_C7_txid_text_roundtrip_witness :
    Txid.deserializeText (Txid.serializeText ⟨List.replicate 32 0⟩) =
        .ok ⟨List.replicate 32 0⟩ ∧
      ∃ e, Txid.deserializeText ['z'] = .error e :=
  ⟨(claim_C7_txid_text_roundtrip.1 ⟨List.replicate 32 0⟩ (by decide) (by decide)).1,
    claim_C7_txid_text_roundtrip.2 ['z'] (Or.inl (by decide))⟩
